import Mathlib

/-!
Shallow embedding of `src/index.ts` of vite-plugin-ruoyi-collect-api.

The plugin statically collects backend endpoints used by Vue pages:
`analyzeApiFile` parses API-definition files with regexes,
`extractDirectApisWithConfig` detects per-file API usage,
`extractApisFromComponentWithConfig` is the recursive dependency walker
(memoized via `componentCache`, cycle-guarded via `processingStack`),
`processFileWithConfig` derives category/page labels and accumulates results,
`generateApiFile` shapes, deduplicates and sorts the JSON output.

File text is modelled as `List Char` (or `String`), file paths as `String`.
Each JavaScript regex is hand-compiled into an explicit matcher with the
same leftmost-match / greedy / lazy semantics; `\s` is modelled by the ASCII
whitespace characters, `\w` by ASCII letters, digits and underscore.
-/

/-- A single-quote character, kept out of string literals. -/
def sqc : Char := Char.ofNat 39

/-- A double-quote character. -/
def dqc : Char := Char.ofNat 34

/-- A backtick character. -/
def bqc : Char := Char.ofNat 96

/-- One detected endpoint: mirrors interface `ApiInfo` of the source
(`url`, `method`, optional `functionName`). -/
structure ApiInfo where
  url : String
  method : String
  functionName : Option String
deriving DecidableEq, Repr

/-- Whitespace class modelling the regex class `\s` (ASCII part). -/
def isJsSpace (c : Char) : Bool :=
  c = ' ' || c = '\t' || c = '\n' || c = '\r' || c = Char.ofNat 11 || c = Char.ofNat 12

/-- Word-character class modelling the regex class `\w`. -/
def isWordChar (c : Char) : Bool :=
  ('a' ≤ c && c ≤ 'z') || ('A' ≤ c && c ≤ 'Z') || ('0' ≤ c && c ≤ '9') || c = '_'

/-- Quote class of the character class used by `analyzeApiFile`
(single quote, double quote or backtick). -/
def isQuote3 (c : Char) : Bool :=
  c = sqc || c = dqc || c = bqc

/-- Quote class of the character class used by `extractDirectApisWithConfig`
(single or double quote only). -/
def isQuote2 (c : Char) : Bool :=
  c = sqc || c = dqc

/-- Longest prefix of characters satisfying `p`, with the remainder:
models a greedy character-class repetition. -/
def spanP (p : Char → Bool) : List Char → List Char × List Char
  | [] => ([], [])
  | c :: cs =>
    if p c then
      let r := spanP p cs
      (c :: r.1, r.2)
    else ([], c :: cs)

/-- Drop a literal from the front of the text, or fail: models a literal
fragment of a regex. -/
def stripLit : List Char → List Char → Option (List Char)
  | [], s => some s
  | _ :: _, [] => none
  | l :: ls, c :: cs => if c = l then stripLit ls cs else none

/-- Require at least one `\s` then skip the rest: models `\s+`. -/
def dropSpaces1 (s : List Char) : Option (List Char) :=
  match s with
  | [] => none
  | c :: cs => if isJsSpace c then some (spanP isJsSpace cs).2 else none

/-- Skip `\s*`. -/
def dropSpaces (s : List Char) : List Char :=
  (spanP isJsSpace s).2

theorem spanP_snd_length (p : Char → Bool) : ∀ s : List Char, (spanP p s).2.length ≤ s.length := by
  intro s
  induction s with
  | nil => simp [spanP]
  | cons c cs ih =>
    simp only [spanP]
    split
    · simpa using Nat.le_succ_of_le ih
    · simp

theorem dropSpaces_length (s : List Char) : (dropSpaces s).length ≤ s.length :=
  spanP_snd_length isJsSpace s

theorem stripLit_length : ∀ {l s r : List Char}, stripLit l s = some r →
    r.length + l.length = s.length := by
  intro l
  induction l with
  | nil => intro s r h; simp [stripLit] at h; simp [h]
  | cons a as ih =>
    intro s r h
    cases s with
    | nil => simp [stripLit] at h
    | cons c cs =>
      simp only [stripLit] at h
      split at h
      · have := ih h
        simp only [List.length_cons]
        omega
      · exact absurd h (by simp)

/-!
Part 1 of `extractDirectApisWithConfig` (lines 361–365 of the source):

    const urlMatches = code.match(/url:\s*["'](\/[^"']+)["']/g) || [];
    urlMatches.forEach(match => \x7b
      const url = match.replace(/url:\s*["']|["']/g, "");
      apis.push(\x7b url, method: 'UNKNOWN' \x7d);
    \x7d);

`matchUrlLiteralAt` is the hand-compiled regex at one position, and
`scanUrlLiterals` the global scan (advance past a match, else by one
character), exactly as a JavaScript global match proceeds.
-/

/-- Consume one character of the class `p`: models a single character-class
occurrence such as `["']`. -/
def expectClass (p : Char → Bool) : List Char → Option (List Char)
  | [] => none
  | c :: cs => if p c then some cs else none

/-- Greedy `p`-class repetition requiring at least one character: models a
pattern like `[^"']+`; returns the consumed run and the remainder. -/
def takeClass1 (p : Char → Bool) (s : List Char) : Option (List Char × List Char) :=
  match spanP p s with
  | ([], _) => none
  | (b :: bs, r) => some (b :: bs, r)

theorem spanP_length (p : Char → Bool) :
    ∀ s : List Char, (spanP p s).1.length + (spanP p s).2.length = s.length := by
  intro s
  induction s with
  | nil => simp [spanP]
  | cons c cs ih =>
    simp only [spanP]
    split
    · simp only [List.length_cons]
      omega
    · simp

theorem expectClass_length {p : Char → Bool} {s r : List Char}
    (h : expectClass p s = some r) : r.length + 1 = s.length := by
  cases s with
  | nil => simp [expectClass] at h
  | cons c cs =>
    simp only [expectClass] at h
    split at h
    · simp at h
      simp [h]
    · exact absurd h (by simp)

theorem takeClass1_length {p : Char → Bool} {s t r : List Char}
    (h : takeClass1 p s = some (t, r)) : t.length + r.length = s.length ∧ 1 ≤ t.length := by
  unfold takeClass1 at h
  cases h3 : spanP p s with
  | mk body rest2 =>
    rw [h3] at h
    have := spanP_length p s
    rw [h3] at this
    cases body with
    | nil => exact absurd h (by simp)
    | cons b bs =>
      have hh : t = b :: bs ∧ r = rest2 := by
        have := h
        simp at this
        exact ⟨this.1.symm, this.2.symm⟩
      obtain ⟨h4, h5⟩ := hh
      subst h4; subst h5
      simp only [List.length_cons] at this ⊢
      omega

/-- Match `url:\s*["'](\/[^"']+)["']` at the start of `s`; on success return
the captured group (which begins with a slash) and the remainder after the
whole match. -/
def matchUrlLiteralAt (s : List Char) : Option (List Char × List Char) := do
  let r1 ← stripLit ['u', 'r', 'l', ':'] s
  let r2 ← expectClass isQuote2 (dropSpaces r1)
  let r3 ← expectClass (fun c => c = '/') r2
  let (body, r4) ← takeClass1 (fun d => !isQuote2 d) r3
  let r5 ← expectClass isQuote2 r4
  return ('/' :: body, r5)

theorem matchUrlLiteralAt_length {s cap rest : List Char}
    (h : matchUrlLiteralAt s = some (cap, rest)) : rest.length < s.length := by
  unfold matchUrlLiteralAt at h
  simp only [Option.bind_eq_bind, Option.bind_eq_some, Option.pure_def, Option.some.injEq,
    Prod.mk.injEq, Prod.exists] at h
  obtain ⟨r1, h1, r2, h2, r3, h3, body, r4, h4, r5, h5, _, hrest⟩ := h
  have l1 : r1.length + 4 = s.length := by simpa using stripLit_length h1
  have l2 : r2.length + 1 = (dropSpaces r1).length := expectClass_length h2
  have l2b : (dropSpaces r1).length ≤ r1.length := dropSpaces_length r1
  have l3 : r3.length + 1 = r2.length := expectClass_length h3
  have l4 := takeClass1_length h4
  have l5 : r5.length + 1 = r4.length := expectClass_length h5
  subst hrest
  omega

/-- Fuelled global scan of the url-literal regex: collect successive
non-overlapping matches, moving past each match, otherwise advancing one
character, as the JavaScript global `String.match` does. -/
def scanUrlLiteralsF : Nat → List Char → List (List Char)
  | 0, _ => []
  | _ + 1, [] => []
  | f + 1, c :: cs =>
    match matchUrlLiteralAt (c :: cs) with
    | some (cap, rest) => cap :: scanUrlLiteralsF f rest
    | none => scanUrlLiteralsF f cs

/-- Global scan of the url-literal regex over the whole text, returning the
captured urls in order.  Fuel equal to the text length always suffices,
since every match consumes at least one character. -/
def scanUrlLiterals (s : List Char) : List (List Char) :=
  scanUrlLiteralsF s.length s

/-- Direct url-literal descriptors of one file text (part 1 of
`extractDirectApisWithConfig`): each match contributes its captured url with
method `UNKNOWN` and no function name. -/
def urlLiteralApis (code : List Char) : List ApiInfo :=
  (scanUrlLiterals code).map fun u => ⟨⟨u⟩, "UNKNOWN", none⟩

/-! ### analyzeApiFile (lines 63–141 of the source)

Two global regex scans over an API-definition file:

pattern 1: `export\s+const\s+(\w+)\s*=[\s\S]*?request\s*\(\s*\{[\s\S]*?\}\s*\)`
pattern 2: `export\s+function\s+(\w+)\s*\([^)]*\)[\s\S]*?request\s*\(\s*\{[\s\S]*?\}\s*\)`

For each match, the request body is re-extracted with the lazy regex
`request\s*\(\s*\{([\s\S]*?)\}\s*\)`, then `url:\s*['"`]([^'"`]+)['"`]` and
`method:\s*['"`]([^'"`]+)['"`]` are matched inside the body; `method`
defaults to `GET` and is upper-cased, and the url is post-processed with
`url.replace(/\s*\+\s*\w+/g, '/{id}')`.
-/

/-- Opening-brace character. -/
def obc : Char := Char.ofNat 123

/-- Closing-brace character. -/
def cbc : Char := Char.ofNat 125

/-- Leftmost-match search: try the matcher at each successive position.
This is the semantics of a lazy gap `[\s\S]*?P` inside a regex, and of the
regex engine's own scan for the start of a match. -/
def findFrom (p : List Char → Option α) : List Char → Option α
  | [] => p []
  | c :: cs =>
    match p (c :: cs) with
    | some a => some a
    | none => findFrom p cs

/-- Lazy body capture `([\s\S]*?)\}\s*\)`: accumulate characters until the
first closing brace that is followed by `\s*\)`; return the body and the
remainder after the closing parenthesis. -/
def takeUntilCloseBrace : List Char → Option (List Char × List Char)
  | [] => none
  | c :: t =>
    match (if c = cbc then expectClass (fun d => d = ')') (dropSpaces t) else none) with
    | some r => some ([], r)
    | none =>
      match takeUntilCloseBrace t with
      | some (b, r) => some (c :: b, r)
      | none => none

/-- Match `request\s*\(\s*\{([\s\S]*?)\}\s*\)` at the start of the text,
returning the captured body and the remainder after the whole match. -/
def matchRequestCall (s : List Char) : Option (List Char × List Char) := do
  let r1 ← stripLit "request".toList s
  let r2 ← expectClass (fun c => c = '(') (dropSpaces r1)
  let r3 ← expectClass (fun c => c = obc) (dropSpaces r2)
  takeUntilCloseBrace r3

/-- Match pattern 1 (`export const`) at the start of the text, returning the
declared name, the captured request body, and the remainder. -/
def matchExportConstAt (s : List Char) : Option ((List Char × List Char) × List Char) := do
  let r1 ← stripLit "export".toList s
  let r2 ← dropSpaces1 r1
  let r3 ← stripLit "const".toList r2
  let r4 ← dropSpaces1 r3
  let (name, r5) ← takeClass1 isWordChar r4
  let r6 ← expectClass (fun c => c = '=') (dropSpaces r5)
  let (body, rest) ← findFrom matchRequestCall r6
  return ((name, body), rest)

/-- Match pattern 2 (`export function`) at the start of the text, returning
the declared name, the captured request body, and the remainder. -/
def matchExportFunctionAt (s : List Char) : Option ((List Char × List Char) × List Char) := do
  let r1 ← stripLit "export".toList s
  let r2 ← dropSpaces1 r1
  let r3 ← stripLit "function".toList r2
  let r4 ← dropSpaces1 r3
  let (name, r5) ← takeClass1 isWordChar r4
  let r6 ← expectClass (fun c => c = '(') (dropSpaces r5)
  let r7 := (spanP (fun c => !(c = ')')) r6).2
  let r8 ← expectClass (fun c => c = ')') r7
  let (body, rest) ← findFrom matchRequestCall r8
  return ((name, body), rest)

/-- Fuelled global scan: collect successive non-overlapping matches, moving
past each match, otherwise advancing one character, as the JavaScript global
`String.match` does. Each matcher consumes at least one character, so fuel
equal to the text length is never exhausted. -/
def gScan (m : List Char → Option (α × List Char)) : Nat → List Char → List α
  | 0, _ => []
  | _ + 1, [] => []
  | f + 1, c :: cs =>
    match m (c :: cs) with
    | some (a, rest) => a :: gScan m f rest
    | none => gScan m f cs

/-- First match of `url:\s*['"`]([^'"`]+)['"`]` anywhere in the request
body (the quote class also contains the backtick). -/
def urlField (body : List Char) : Option (List Char) :=
  findFrom (fun t => do
    let r1 ← stripLit "url:".toList t
    let r2 ← expectClass isQuote3 (dropSpaces r1)
    let (cap, r3) ← takeClass1 (fun d => !isQuote3 d) r2
    let _ ← expectClass isQuote3 r3
    return cap) body

/-- First match of `method:\s*['"`]([^'"`]+)['"`]` anywhere in the request
body. -/
def methodField (body : List Char) : Option (List Char) :=
  findFrom (fun t => do
    let r1 ← stripLit "method:".toList t
    let r2 ← expectClass isQuote3 (dropSpaces r1)
    let (cap, r3) ← takeClass1 (fun d => !isQuote3 d) r2
    let _ ← expectClass isQuote3 r3
    return cap) body

/-- Match `\s*\+\s*\w+` at the start of the text (the pattern of the dynamic
url replacement), returning the remainder. -/
def matchPlusAt (s : List Char) : Option (List Char) := do
  let r1 ← expectClass (fun c => c = '+') (dropSpaces s)
  let (_, r2) ← takeClass1 isWordChar (dropSpaces r1)
  return r2

theorem matchPlusAt_length {s rest : List Char}
    (h : matchPlusAt s = some rest) : rest.length < s.length := by
  unfold matchPlusAt at h
  simp only [Option.bind_eq_bind, Option.bind_eq_some, Option.pure_def, Option.some.injEq,
    Prod.exists] at h
  obtain ⟨r1, h1, w, r2, h2, hrest⟩ := h
  have l0 : (dropSpaces s).length ≤ s.length := dropSpaces_length s
  have l1 : r1.length + 1 = (dropSpaces s).length := expectClass_length h1
  have l1b : (dropSpaces r1).length ≤ r1.length := dropSpaces_length r1
  have l2 := takeClass1_length h2
  subst hrest
  omega

/-- Fuelled scan of the global replacement of `\s*\+\s*\w+` by the
placeholder segment. -/
def replacePlusF : Nat → List Char → List Char
  | 0, s => s
  | _ + 1, [] => []
  | f + 1, c :: cs =>
    match matchPlusAt (c :: cs) with
    | some rest => '/' :: obc :: 'i' :: 'd' :: cbc :: replacePlusF f rest
    | none => c :: replacePlusF f cs

/-- The global replacement `url.replace(/\s*\+\s*\w+/g, '/{id}')` applied to
the captured url (the `cleanUrl` step of `analyzeApiFile`).  Fuel equal to
the text length always suffices, since every match consumes at least one
character. -/
def replacePlus (s : List Char) : List Char :=
  replacePlusF s.length s

/-- Turn one outer-pattern match into an `ApiInfo`, exactly as the forEach
bodies of `analyzeApiFile` do: drop the match when no `url:` field is found;
default the method to `GET`, upper-cased otherwise; clean the url. -/
def processPatternMatch (nb : List Char × List Char) : Option ApiInfo :=
  match urlField nb.2 with
  | none => none
  | some url =>
    let method : String :=
      match methodField nb.2 with
      | some m => ⟨m.map Char.toUpper⟩
      | none => "GET"
    some ⟨⟨replacePlus url⟩, method, some ⟨nb.1⟩⟩

/-- The whole of `analyzeApiFile` on a file's text: pattern-1 matches first,
then pattern-2 matches, each converted to a descriptor when a url is
present. (The surrounding `try`/`catch` and the file read live in the
walker model; this function takes the text.) -/
def analyzeApiFile (code : String) : List ApiInfo :=
  let cs := code.toList
  (gScan matchExportConstAt cs.length cs).filterMap processPatternMatch
    ++ (gScan matchExportFunctionAt cs.length cs).filterMap processPatternMatch

/-! ### extractDirectApisWithConfig parts 2 and 3, and resolveApiPath
(lines 368–424 and 588–629 of the source)

Part 2 scans `import\s+\{([^}]+)\}\s+from\s+["']([^"']*\/api\/[^"']+)["']`,
part 3 scans `import\s+(\w+)\s+from\s+["']([^"']*\/api\/[^"']+)["']`.
Because the path capture `[^"']*\/api\/[^"']+` excludes quotes, it always
equals the whole quoted run, and the regex succeeds exactly when `/api/`
occurs in the run with at least one character after it.  Each imported name
is kept only if `\b<name>\s*\(` occurs in the file text, and is then looked
up in the catalog entry of the resolved module path. -/

/-- The catalog of API definitions: mirrors the `apiDefinitions` object
(module path to descriptor list, insertion-ordered). -/
abbrev Catalog := List (String × List ApiInfo)

/-- Object-property lookup on the catalog. -/
def catalogFind (catalog : Catalog) (key : String) : Option (List ApiInfo) :=
  match catalog with
  | [] => none
  | (k, v) :: rest => if k = key then some v else catalogFind rest key

/-- Mirrors `findApiByFunctionName`: first descriptor whose `functionName`
equals the given name, else none. -/
def findApiByFunctionName (apis : List ApiInfo) (functionName : String) : Option ApiInfo :=
  match apis with
  | [] => none
  | api :: rest =>
    if api.functionName = some functionName then some api
    else findApiByFunctionName rest functionName

/-- Does `/api/` occur in the run with at least one character after it?
This is when `[^"']*\/api\/[^"']+` can cover the whole quoted run. -/
def hasApiRoom : List Char → Bool
  | [] => false
  | c :: cs =>
    (match stripLit ['/', 'a', 'p', 'i', '/'] (c :: cs) with
     | some (_ :: _) => true
     | _ => false) || hasApiRoom cs

/-- Match part 2's grouped-import regex at the start of the text, returning
the raw name list, the quoted path, and the remainder. -/
def matchGroupedImportAt (s : List Char) :
    Option ((List Char × List Char) × List Char) := do
  let r1 ← stripLit "import".toList s
  let r2 ← dropSpaces1 r1
  let r3 ← expectClass (fun c => c = obc) r2
  let (names, r4) ← takeClass1 (fun c => !(c = cbc)) r3
  let r5 ← expectClass (fun c => c = cbc) r4
  let r6 ← dropSpaces1 r5
  let r7 ← stripLit "from".toList r6
  let r8 ← dropSpaces1 r7
  let r9 ← expectClass isQuote2 r8
  let (run, r10) ← takeClass1 (fun c => !isQuote2 c) r9
  let r11 ← expectClass isQuote2 r10
  if hasApiRoom run then return ((names, run), r11) else none

/-- Match part 3's single-import regex at the start of the text, returning
the imported name, the quoted path, and the remainder. -/
def matchSingleImportAt (s : List Char) :
    Option ((List Char × List Char) × List Char) := do
  let r1 ← stripLit "import".toList s
  let r2 ← dropSpaces1 r1
  let (name, r3) ← takeClass1 isWordChar r2
  let r4 ← dropSpaces1 r3
  let r5 ← stripLit "from".toList r4
  let r6 ← dropSpaces1 r5
  let r7 ← expectClass isQuote2 r6
  let (run, r8) ← takeClass1 (fun c => !isQuote2 c) r7
  let r9 ← expectClass isQuote2 r8
  if hasApiRoom run then return ((name, run), r9) else none

/-- JavaScript `String.prototype.trim` on the ASCII whitespace class. -/
def trimJs (s : String) : String :=
  ⟨((spanP isJsSpace (spanP isJsSpace s.toList).2.reverse).2).reverse⟩

/-- JavaScript `String.prototype.split` on a one-character separator. -/
def splitOnChar (sep : Char) : List Char → List (List Char)
  | [] => [[]]
  | c :: cs =>
    if c = sep then [] :: splitOnChar sep cs
    else
      match splitOnChar sep cs with
      | [] => [[c]]
      | t :: ts => (c :: t) :: ts

/-- Split the raw grouped-import name list on commas and trim each piece,
as `importsMatch[1].split(',').map(s => s.trim())` does. -/
def splitCommaTrim (names : List Char) : List String :=
  (splitOnChar ',' names).map fun l => trimJs ⟨l⟩

/-- Does `\b<name>\s*\(` occur anywhere in the text?  `prev` carries the
character before the current position for the word-boundary test.  A name
must be nonempty and start with a word character (true of every `\w+`
match; for other strings the word-boundary behaviour is not modelled and
the test is false). -/
def hasFuncCallAux (name : List Char) (prev : Option Char) (s : List Char) : Bool :=
  match s with
  | [] => false
  | c :: cs =>
    (boundary &&
      (match stripLit name (c :: cs) with
       | some r => (expectClass (fun d => d = '(') (dropSpaces r)).isSome
       | none => false))
    || hasFuncCallAux name (some c) cs
where
  boundary : Bool :=
    (match name with
     | n0 :: _ => isWordChar n0
     | [] => false)
    && (match prev with
        | none => true
        | some p => !isWordChar p)

/-- The `funcCallRegex.test(code)` check of the source for one name. -/
def hasFuncCall (code : List Char) (name : String) : Bool :=
  hasFuncCallAux name.toList none code

/-- Remainder of the text after the last occurrence of `marker`, if any:
models `lastIndexOf` followed by `substring` past the marker. -/
def afterLastMarker (marker : List Char) : List Char → Option (List Char)
  | [] => none
  | c :: cs =>
    match afterLastMarker marker cs with
    | some r => some r
    | none =>
      match stripLit marker (c :: cs) with
      | some r => some r
      | none => none

/-- Mirrors `resolveApiPath` (lines 588–629): `@/<apiDir>/` prefix, then a
`/<apiDir>/` segment, then the configured alias table, then the Vite alias
table; otherwise null. -/
def resolveApiPath (importPath : String) (aliasCfg viteAlias : List (String × String))
    (apiDirName : String) : Option String :=
  let marker : List Char := '/' :: (apiDirName.toList ++ ['/'])
  match stripLit ('@' :: marker) importPath.toList with
  | some r => some ⟨r⟩
  | none =>
    match afterLastMarker marker importPath.toList with
    | some r => some ⟨r⟩
    | none =>
      match aliasLoop marker importPath.toList aliasCfg with
      | some r => some r
      | none => aliasLoop marker importPath.toList viteAlias
where
  aliasLoop (marker ip : List Char) : List (String × String) → Option String
    | [] => none
    | (al, res) :: rest =>
      match stripLit al.toList ip with
      | some rem =>
        match afterLastMarker marker (res.toList ++ rem) with
        | some r => some ⟨r⟩
        | none => aliasLoop marker ip rest
      | none => aliasLoop marker ip rest

/-- Part 2 of `extractDirectApisWithConfig`: grouped imports from an
api-path, keeping each imported name that is also called in the text and
found in the catalog. -/
def groupedImportApis (code : List Char) (catalog : Catalog)
    (aliasCfg viteAlias : List (String × String)) (apiDirName : String) : List ApiInfo :=
  (gScan matchGroupedImportAt code.length code).flatMap fun nr =>
    match resolveApiPath ⟨nr.2⟩ aliasCfg viteAlias apiDirName with
    | none => []
    | some apiPath =>
      (splitCommaTrim nr.1).flatMap fun fn =>
        if hasFuncCall code fn then
          match catalogFind catalog apiPath with
          | none => []
          | some apis =>
            match findApiByFunctionName apis fn with
            | some a => [a]
            | none => []
        else []

/-- Part 3 of `extractDirectApisWithConfig`: single-name imports from an
api-path, with the same call-usage check and catalog lookup. -/
def singleImportApis (code : List Char) (catalog : Catalog)
    (aliasCfg viteAlias : List (String × String)) (apiDirName : String) : List ApiInfo :=
  (gScan matchSingleImportAt code.length code).flatMap fun nr =>
    match resolveApiPath ⟨nr.2⟩ aliasCfg viteAlias apiDirName with
    | none => []
    | some apiPath =>
      if hasFuncCall code ⟨nr.1⟩ then
        match catalogFind catalog apiPath with
        | none => []
        | some apis =>
          match findApiByFunctionName apis ⟨nr.1⟩ with
          | some a => [a]
          | none => []
      else []

/-- The whole of `extractDirectApisWithConfig` on one file's text: url
literals, then grouped api imports, then single api imports. -/
def extractDirectApis (code : String) (catalog : Catalog)
    (aliasCfg viteAlias : List (String × String)) (apiDirName : String) : List ApiInfo :=
  urlLiteralApis code.toList
    ++ groupedImportApis code.toList catalog aliasCfg viteAlias apiDirName
    ++ singleImportApis code.toList catalog aliasCfg viteAlias apiDirName

/-! ### The dependency walker `extractApisFromComponentWithConfig`
(lines 310–355 of the source)

    function extractApisFromComponentWithConfig(filePath, visited = new Set(), ...) \x7b
      if (visited.has(filePath) || processingStack.has(filePath)) return [];
      if (componentCache.has(filePath)) return componentCache.get(filePath);
      processingStack.add(filePath);
      visited.add(filePath);
      try \x7b
        if (!fs.existsSync(filePath)) return [];
        const code = fs.readFileSync(filePath, "utf-8");
        const apis = [];
        apis.push(...extractDirectApisWithConfig(code, ...));
        const componentImports = findComponentImports(code, ...);
        for (const componentPath of componentImports)
          apis.push(...extractApisFromComponentWithConfig(componentPath, new Set(visited), ...));
        componentCache.set(filePath, apis);
        processingStack.delete(filePath);
        return apis;
      \x7d catch (error) \x7b
        processingStack.delete(filePath);
        return [];
      \x7d
    \x7d

The file system and the two per-file detection functions
(`extractDirectApisWithConfig` composed with the read, and
`findComponentImports`) are parameters of the walker: `direct p` is the
direct-descriptor list of the file at `p`, `imports p` its resolved
component imports.  A file is `missing` (fails `existsSync`), `error`
(reading or detecting throws, landing in the catch), or `present`.
Recursion is fuelled; running out of fuel yields `none`, so a `some`
result is a terminating run of the original recursion.  The `reads` log
records each attempted `readFileSync`, newest first — the read-count
instrumentation double of the spec's memoization property. -/

/-- State of one file in the walker's eyes. -/
inductive FileState where
  | missing : FileState
  | error : FileState
  | present : FileState
deriving DecidableEq, Repr

/-- The walker's environment: file system plus per-file detection output. -/
structure WalkEnv where
  file : String → FileState
  direct : String → List ApiInfo
  imports : String → List String

/-- The walker's mutable globals: `componentCache` (insertion-ordered
association list, newest first), `processingStack` (as a duplicate-free
list), and the read log. -/
structure WalkSt where
  cache : List (String × List ApiInfo)
  stack : List String
  reads : List String
deriving DecidableEq, Repr

/-- Lookup in the memoization map. -/
def cacheFind (cache : List (String × List ApiInfo)) (key : String) : Option (List ApiInfo) :=
  match cache with
  | [] => none
  | (k, v) :: rest => if k = key then some v else cacheFind rest key

mutual

/-- One invocation of `extractApisFromComponentWithConfig` on `p` with the
per-call `visited` set (each child receives a copy of the parent's set, as
`new Set(visited)` does).  The fuel is a recursion bound, decremented on
every nested call; a `some` result is a terminating run of the original
(unfuelled) recursion. -/
def walk (env : WalkEnv) : Nat → String → List String → WalkSt →
    Option (List ApiInfo × WalkSt)
  | 0, _, _, _ => none
  | fuel + 1, p, visited, st =>
    if p ∈ visited ∨ p ∈ st.stack then some ([], st)
    else
      match cacheFind st.cache p with
      | some apis => some (apis, st)
      | none =>
        let st1 : WalkSt := { st with stack := p :: st.stack }
        let visited1 := p :: visited
        match env.file p with
        | FileState.missing => some ([], st1)
        | FileState.error =>
          some ([], { st1 with stack := st1.stack.erase p, reads := p :: st1.reads })
        | FileState.present =>
          let st2 : WalkSt := { st1 with reads := p :: st1.reads }
          match walkChildren env fuel (env.imports p) visited1 st2 with
          | none => none
          | some (childApis, st3) =>
            let apis := env.direct p ++ childApis
            some (apis, { st3 with
              cache := (p, apis) :: st3.cache,
              stack := st3.stack.erase p })

/-- The walker's for-loop over resolved component imports, accumulating the
children's descriptor lists in order. -/
def walkChildren (env : WalkEnv) : Nat → List String → List String → WalkSt →
    Option (List ApiInfo × WalkSt)
  | _, [], _, st => some ([], st)
  | 0, _ :: _, _, _ => none
  | fuel + 1, c :: cs, visited, st => do
    let (a, st') ← walk env fuel c visited st
    let (as, st'') ← walkChildren env fuel cs visited st'
    return (a ++ as, st'')

end

/-! ### processFileWithConfig (lines 243–307) and generateApiFile (lines 441–499)

`processFileWithConfig` extracts the part of the file path after the views
directory (regex `[/\\]src[/\\]views[/\\](.+)` for the default
`viewsDir: 'src/views'`), derives the category and page labels from it,
runs the walker with a fresh per-call visited set, and — only when at
least one descriptor was found — stores each descriptor into the nested
`viewApiData[category][page]` set, deduplicating by the JSON encoding of
the descriptor, which coincides with structural equality of
(url, method, functionName).  Paths are modelled with `/` separators (the
`[/\\]` alternatives and the backslash normalisation collapse).

`generateApiFile` turns each category into either a flat sorted array
(when the category is `/`, or has exactly one page named `/` or named like
the category) or a nested page map of sorted arrays; arrays are sorted by
`(a, b) => a.url.localeCompare(b.url)` — by url only — with JavaScript's
stable sort.  `localeCompare` is modelled as lexicographic string order,
and the stable sort by Mathlib's insertion sort, which is stable. -/

/-- Remainder of the path after the leftmost occurrence of the views-dir
marker that still has at least one character after it: the capture of
`[/\\]src[/\\]views[/\\](.+)`. -/
def afterFirstMarker (marker : List Char) : List Char → Option (List Char)
  | [] => none
  | c :: cs =>
    match stripLit marker (c :: cs) with
    | some (d :: r) => some (d :: r)
    | _ => afterFirstMarker marker cs

/-- Strip a trailing `.vue` (the `replace(/\.vue$/, '')` step). -/
def stripVueExt (s : String) : String :=
  let l := s.toList
  if (stripLit ['e', 'u', 'v', '.'] l.reverse).isSome then ⟨l.take (l.length - 4)⟩ else s

/-- Category and page labels from the path below the views root
(lines 253–280). -/
def pageLabels (fullPath : String) : String × String :=
  let parts := (splitOnChar '/' fullPath.toList).map fun l => (⟨l⟩ : String)
  match parts with
  | [] => ("", "")
  | [fileName] =>
    if fileName = "index.vue" ∨ fileName = "defaultIndex.vue" then ("/", "/")
    else (stripVueExt fileName, "/")
  | p0 :: p1 :: rest2 =>
    (p0, if rest2 = [] then p0 else p0 ++ "/" ++ p1)

/-- One `Set.add` of a descriptor: append only when not already present,
preserving insertion order.  Equality is structural equality of the whole
descriptor, matching equality of the `JSON.stringify` encodings. -/
def addToSet (s : List ApiInfo) (api : ApiInfo) : List ApiInfo :=
  if api ∈ s then s else s ++ [api]

/-- Add a whole descriptor list to a page's set. -/
def setAddAll (s : List ApiInfo) (apis : List ApiInfo) : List ApiInfo :=
  apis.foldl addToSet s

/-- The per-run accumulator `viewApiData`: category to page to descriptor
set, all insertion-ordered as JavaScript objects and Sets are. -/
abbrev ViewData := List (String × List (String × List ApiInfo))

/-- Insert descriptors into a page's set inside one category, creating the
page at the end on first use. -/
def pagesInsert (pages : List (String × List ApiInfo)) (page : String)
    (apis : List ApiInfo) : List (String × List ApiInfo) :=
  match pages with
  | [] => [(page, setAddAll [] apis)]
  | (k, v) :: rest =>
    if k = page then (k, setAddAll v apis) :: rest
    else (k, v) :: pagesInsert rest page apis

/-- Insert descriptors into `viewApiData[category][page]`, creating the
category at the end on first use. -/
def vdInsert (vd : ViewData) (cat page : String) (apis : List ApiInfo) : ViewData :=
  match vd with
  | [] => [(cat, pagesInsert [] page apis)]
  | (k, pages) :: rest =>
    if k = cat then (k, pagesInsert pages page apis) :: rest
    else (k, pages) :: vdInsert rest cat page apis

/-- One `processFileWithConfig` call: skip files not under the views root;
walk the file with a fresh visited set; record the results only when the
walk found at least one descriptor. -/
def processFile (env : WalkEnv) (fuel : Nat) (viewsMarker : List Char) (path : String)
    (vd : ViewData) (st : WalkSt) : Option (ViewData × WalkSt) :=
  match afterFirstMarker viewsMarker path.toList with
  | none => some (vd, st)
  | some rest =>
    let labels := pageLabels ⟨rest⟩
    match walk env fuel path [] st with
    | none => none
    | some (apis, st') =>
      if 0 < apis.length then some (vdInsert vd labels.1 labels.2 apis, st')
      else some (vd, st')

/-- Lexicographic order on character lists by code point: the model of
`localeCompare` (and of plain string comparison) used for sorting. -/
def charsLe : List Char → List Char → Bool
  | [], _ => true
  | _ :: _, [] => false
  | a :: as, b :: bs =>
    if a.toNat = b.toNat then charsLe as bs else decide (a.toNat < b.toNat)

theorem charsLe_total : ∀ a b : List Char, charsLe a b = true ∨ charsLe b a = true := by
  intro a
  induction a with
  | nil => intro b; left; rfl
  | cons x xs ih =>
    intro b
    cases b with
    | nil => right; rfl
    | cons y ys =>
      by_cases hxy : x.toNat = y.toNat
      · rcases ih ys with h | h
        · left; simp [charsLe, hxy, h]
        · right; simp [charsLe, hxy.symm, h]
      · by_cases hlt : x.toNat < y.toNat
        · left; simp [charsLe, hxy, hlt]
        · right
          have hne : y.toNat ≠ x.toNat := fun h => hxy h.symm
          have hgt : y.toNat < x.toNat := by omega
          simp [charsLe, hne, hgt]

theorem charsLe_trans : ∀ a b c : List Char,
    charsLe a b = true → charsLe b c = true → charsLe a c = true := by
  intro a
  induction a with
  | nil => intro b c _ _; rfl
  | cons x xs ih =>
    intro b c hab hbc
    cases b with
    | nil => simp [charsLe] at hab
    | cons y ys =>
      cases c with
      | nil => simp [charsLe] at hbc
      | cons z zs =>
        simp only [charsLe] at hab hbc ⊢
        by_cases hxy : x.toNat = y.toNat <;> by_cases hyz : y.toNat = z.toNat
        · rw [if_pos hxy] at hab
          rw [if_pos hyz] at hbc
          rw [if_pos (hxy.trans hyz)]
          exact ih ys zs hab hbc
        · rw [if_pos hxy] at hab
          rw [if_neg hyz] at hbc
          have hlt : y.toNat < z.toNat := of_decide_eq_true hbc
          have hne : x.toNat ≠ z.toNat := by omega
          rw [if_neg hne]
          exact decide_eq_true (by omega)
        · rw [if_neg hxy] at hab
          have hlt : x.toNat < y.toNat := of_decide_eq_true hab
          have hne : x.toNat ≠ z.toNat := by omega
          rw [if_neg hne]
          exact decide_eq_true (by omega)
        · rw [if_neg hxy] at hab
          rw [if_neg hyz] at hbc
          have h1 : x.toNat < y.toNat := of_decide_eq_true hab
          have h2 : y.toNat < z.toNat := of_decide_eq_true hbc
          have hne : x.toNat ≠ z.toNat := by omega
          rw [if_neg hne]
          exact decide_eq_true (by omega)

/-- Sort key of the output arrays: the comparator
`(a, b) => a.url.localeCompare(b.url)` compares urls only. -/
def urlLE (a b : ApiInfo) : Prop := charsLe a.url.toList b.url.toList = true

instance : DecidableRel urlLE := fun a b =>
  inferInstanceAs (Decidable (charsLe a.url.toList b.url.toList = true))

instance : IsTotal ApiInfo urlLE :=
  ⟨fun a b => charsLe_total a.url.toList b.url.toList⟩

instance : IsTrans ApiInfo urlLE :=
  ⟨fun a b c hab hbc => charsLe_trans a.url.toList b.url.toList c.url.toList hab hbc⟩

/-- The stable sort of an output array by url. -/
def sortApis (l : List ApiInfo) : List ApiInfo :=
  List.insertionSort urlLE l

/-- One category of the output document: either a flat descriptor array or
a page-to-array map. -/
inductive OutCat where
  | flat : List ApiInfo → OutCat
  | nested : List (String × List ApiInfo) → OutCat
deriving DecidableEq, Repr

/-- The output document built by `generateApiFile` from the accumulated
`viewApiData` (before JSON encoding): flatten a category exactly when it is
`/`, or has a single page named `/`, or a single page named like the
category; sort every array. -/
def generate (vd : ViewData) : List (String × OutCat) :=
  vd.map fun cp =>
    let keys := (cp.2.map Prod.fst)
    if cp.1 = "/" ∨ (keys.length = 1 ∧ keys.headD "" = "/")
        ∨ (keys.length = 1 ∧ keys.headD "" = cp.1) then
      match cp.2 with
      | [] => (cp.1, OutCat.flat [])
      | (_, s) :: _ => (cp.1, OutCat.flat (sortApis s))
    else
      (cp.1, OutCat.nested (cp.2.map fun ps => (ps.1, sortApis ps.2)))

/-- Every endpoint array appearing in the output document, flat or nested. -/
def allArrays (out : List (String × OutCat)) : List (List ApiInfo) :=
  out.flatMap fun co =>
    match co.2 with
    | OutCat.flat l => [l]
    | OutCat.nested ps => ps.map Prod.snd

/-! ### Concrete scenario inputs -/

/-- The spec's catalog scenario source:
`export function getUser() \x7b request(\x7b url: '/user/' + id, method: 'GET' \x7d) \x7d`. -/
def getUserSrc : String :=
  "export function getUser() " ++ obc.toString ++ " request(" ++ obc.toString
    ++ " url: " ++ sqc.toString ++ "/user/" ++ sqc.toString ++ " + id, method: "
    ++ sqc.toString ++ "GET" ++ sqc.toString ++ " " ++ cbc.toString ++ ") " ++ cbc.toString

/-- A page source importing and calling `getUser`:
`import \x7b getUser \x7d from '@/api/user'` followed by `getUser()`. -/
def pageSrc : String :=
  "import " ++ obc.toString ++ " getUser " ++ cbc.toString ++ " from " ++ sqc.toString
    ++ "@/api/user" ++ sqc.toString ++ "\ngetUser()"

/-- The catalog built from the `user` module alone. -/
def userCatalog : Catalog := [("user", analyzeApiFile getUserSrc)]

/-- Direct descriptors of the page source against that catalog, with the
default alias table `{'@': 'src'}` and `apiDir` ending in `api`. -/
def pageDirect : List ApiInfo :=
  extractDirectApis pageSrc userCatalog [("@", "src")] [] "api"

/-! ### C5 -/

/-- C5: the claim says a url built as `'/user/' + id` is extracted with the
concatenated identifier replaced by a placeholder, giving
`{url: "/user/{id}", method: "GET"}`.  The code's own comment above the
`cleanUrl` replacement documents exactly that intent, but the url capture
`[^'"`]+` stops at the closing quote, so the captured url is `/user/` and
the `\s*\+\s*\w+` replacement never fires on the documented case: the
extracted descriptor is `{url: "/user/", method: "GET"}`. -/
theorem c5_dynamic_url_extraction :
    analyzeApiFile getUserSrc
      = [{ url := "/user/", method := "GET", functionName := some "getUser" }]
    ∧ ({ url := "/user/", method := "GET", functionName := some "getUser" } : ApiInfo).url
        ≠ "/user/{id}" := by
  decide

/-! ### C1 -/

/-- Environment of a two-file import cycle: entry `A` imports component `B`
and `B` imports `A` back; both files are present and carry arbitrary direct
descriptor lists. -/
def cycleEnv (A B : String) (dA dB : List ApiInfo) : WalkEnv where
  file := fun _ => FileState.present
  direct := fun p => if p = A then dA else if p = B then dB else []
  imports := fun p => if p = A then [B] else if p = B then [A] else []

/-- C1: on a two-file import cycle A → B → A the walk of A terminates (a
`some` result of the fuelled recursion), and the descriptor list recorded
for A in the memoization map — which is also the returned result — contains
every descriptor directly declared in A and every one directly declared
in B. -/
theorem c1_cycle_terminates_and_collects (A B : String) (dA dB : List ApiInfo)
    (hAB : A ≠ B) :
    walk (cycleEnv A B dA dB) 9 A [] ⟨[], [], []⟩
      = some (dA ++ dB, ⟨[(A, dA ++ dB), (B, dB)], [], [B, A]⟩)
    ∧ cacheFind [(A, dA ++ dB), (B, dB)] A = some (dA ++ dB)
    ∧ ∀ x : ApiInfo, x ∈ dA ∨ x ∈ dB → x ∈ dA ++ dB := by
  refine ⟨?_, ?_, ?_⟩
  · simp [walk, walkChildren, cycleEnv, cacheFind, hAB, Ne.symm hAB]
  · simp [cacheFind]
  · intro x hx
    rcases hx with h | h <;> simp [h]

/-- Witness for C1 at a concrete cycle. -/
theorem c1_witness :
    walk (cycleEnv "a" "b" [⟨"/a", "GET", none⟩] [⟨"/b", "POST", none⟩]) 9 "a" [] ⟨[], [], []⟩
      = some ([⟨"/a", "GET", none⟩, ⟨"/b", "POST", none⟩],
          ⟨[("a", [⟨"/a", "GET", none⟩, ⟨"/b", "POST", none⟩]), ("b", [⟨"/b", "POST", none⟩])],
            [], ["b", "a"]⟩)
    ∧ cacheFind [("a", [⟨"/a", "GET", none⟩, ⟨"/b", "POST", none⟩]), ("b", [⟨"/b", "POST", none⟩])] "a"
        = some [⟨"/a", "GET", none⟩, ⟨"/b", "POST", none⟩]
    ∧ ∀ x : ApiInfo, x ∈ [⟨"/a", "GET", none⟩] ∨ x ∈ [⟨"/b", "POST", none⟩] →
        x ∈ [⟨"/a", "GET", none⟩, ⟨"/b", "POST", none⟩] :=
  c1_cycle_terminates_and_collects "a" "b" _ _ (by decide)

/-! ### C2 -/

/-- Environment in which every file read throws. -/
def errEnv : WalkEnv where
  file := fun _ => FileState.error
  direct := fun _ => []
  imports := fun _ => []

/-- C2 counterexample: after walking a file whose read throws, the
memoization map holds no entry for it at all — the code's catch block only
deletes the path from the processing stack and returns `[]`, it never
writes the empty list into `componentCache`, contradicting the claim that
an erroring file is marked completed with an empty set. -/
theorem c2_counterexample :
    walk errEnv 1 "v" [] ⟨[], [], []⟩ = some ([], ⟨[], [], ["v"]⟩)
    ∧ (walk errEnv 1 "v" [] ⟨[], [], []⟩).map (fun r => cacheFind r.2.cache "v")
        = some none := by
  decide

/-- C2 amended: when a file's read or detection throws, the walk returns
the empty list and restores the visiting set, but stores no memoization
entry (the state is unchanged except for the read log); consequently a
later walk of the same path re-attempts the read instead of hitting a
cache. -/
theorem c2_error_not_memoized (env : WalkEnv) (fuel : Nat) (p : String)
    (visited : List String) (st : WalkSt) (herr : env.file p = FileState.error)
    (hv : p ∉ visited) (hs : p ∉ st.stack) (hc : cacheFind st.cache p = none) :
    walk env (fuel + 1) p visited st = some ([], { st with reads := p :: st.reads })
    ∧ walk env (fuel + 1) p visited { st with reads := p :: st.reads }
        = some ([], { st with reads := p :: p :: st.reads }) := by
  have hguard : ¬ (p ∈ visited ∨ p ∈ st.stack) := by tauto
  constructor
  · simp [walk, hguard, hc, herr]
  · simp [walk, hguard, hc, herr]

/-- Witness for C2's amended theorem at a concrete erroring file. -/
theorem c2_witness :
    walk errEnv 1 "v" [] ⟨[], [], []⟩ = some ([], ⟨[], [], ["v"]⟩)
    ∧ walk errEnv 1 "v" [] ⟨[], [], ["v"]⟩ = some ([], ⟨[], [], ["v", "v"]⟩) := by
  have h := c2_error_not_memoized errEnv 0 "v" [] ⟨[], [], []⟩ rfl (by simp) (by simp) rfl
  simpa using h

/-! ### C6 -/

/-- Environment in which every file is missing on disk. -/
def missEnv : WalkEnv where
  file := fun _ => FileState.missing
  direct := fun _ => []
  imports := fun _ => []

/-- C6 counterexample: walking a missing file leaves its path on the
processing stack — the early `return []` after the `existsSync` check runs
after `processingStack.add(filePath)` and never deletes the entry, so the
visiting set after the invocation differs from the one before it. -/
theorem c6_counterexample :
    walk missEnv 1 "m" [] ⟨[], [], []⟩ = some ([], ⟨[], ["m"], []⟩)
    ∧ (["m"] : List String) ≠ ([] : List String) := by
  decide

/-- Relation between walker states: the later stack is the earlier stack
with some missing-on-disk paths stuck in front of it. -/
def WalkStackProp (env : WalkEnv) (st st' : WalkSt) : Prop :=
  ∃ stuck, st'.stack = stuck ++ st.stack ∧ ∀ q ∈ stuck, env.file q = FileState.missing

theorem walkStackAux (env : WalkEnv) : ∀ fuel : Nat,
    (∀ p visited st r st', walk env fuel p visited st = some (r, st') → WalkStackProp env st st')
    ∧ (∀ cs visited st r st', walkChildren env fuel cs visited st = some (r, st') →
        WalkStackProp env st st') := by
  intro fuel
  induction fuel with
  | zero =>
    constructor
    · intro p visited st r st' h
      simp [walk] at h
    · intro cs visited st r st' h
      cases cs with
      | nil =>
        simp [walkChildren] at h
        exact ⟨[], by simp [h.2.symm], by simp⟩
      | cons c cs' => simp [walkChildren] at h
  | succ n ih =>
    constructor
    · intro p visited st r st' h
      simp only [walk] at h
      split at h
      · have hst : st' = st := by
          simp at h
          exact h.2.symm
        exact ⟨[], by simp [hst], by simp⟩
      · rename_i hguard
        cases hcf : cacheFind st.cache p with
        | some apis =>
          rw [hcf] at h
          simp at h
          exact ⟨[], by simp [h.2.symm], by simp⟩
        | none =>
          rw [hcf] at h
          cases hf : env.file p with
          | missing =>
            rw [hf] at h
            simp at h
            refine ⟨[p], ?_, ?_⟩
            · simp [← h.2]
            · simp [hf]
          | error =>
            rw [hf] at h
            simp at h
            refine ⟨[], ?_, by simp⟩
            rw [← h.2]
            simp [List.erase_cons_head]
          | present =>
            rw [hf] at h
            cases hwc : walkChildren env n (env.imports p) (p :: visited)
                ⟨st.cache, p :: st.stack, p :: st.reads⟩ with
            | none =>
              rw [hwc] at h
              simp at h
            | some pr =>
              obtain ⟨childApis, st3⟩ := pr
              rw [hwc] at h
              simp at h
              obtain ⟨stuck, hstk, hmiss⟩ := ih.2 _ _ _ _ _ hwc
              have hpstuck : p ∉ stuck := by
                intro hmem
                have := hmiss p hmem
                rw [hf] at this
                exact absurd this (by simp)
              refine ⟨stuck, ?_, hmiss⟩
              rw [← h.2]
              simp only [WalkSt.mk.injEq] at hstk ⊢
              rw [hstk]
              rw [List.erase_append_right _ (by simpa using hpstuck)]
              simp [List.erase_cons_head]
    · intro cs visited st r st' h
      cases cs with
      | nil =>
        simp [walkChildren] at h
        exact ⟨[], by simp [h.2.symm], by simp⟩
      | cons c cs' =>
        simp only [walkChildren, Option.bind_eq_bind, Option.bind_eq_some, Option.pure_def,
          Option.some.injEq, Prod.mk.injEq, Prod.exists] at h
        obtain ⟨a, stm, h1, as, st2', h2, _, hst⟩ := h
        obtain ⟨s1, hs1, hm1⟩ := ih.1 _ _ _ _ _ h1
        obtain ⟨s2, hs2, hm2⟩ := ih.2 _ _ _ _ _ h2
        refine ⟨s2 ++ s1, ?_, ?_⟩
        · rw [← hst, hs2, hs1, List.append_assoc]
        · intro q hq
          rcases List.mem_append.mp hq with hq | hq
          · exact hm2 q hq
          · exact hm1 q hq

/-- C6 amended: for every returning invocation, the visiting set afterwards
is the visiting set before it with exactly the missing-on-disk files first
visited during the invocation stuck in front; in particular it is restored
on the success and error exits, but a missing file's path stays marked. -/
theorem c6_stack_restored_except_missing (env : WalkEnv) (fuel : Nat) (p : String)
    (visited : List String) (st : WalkSt) (r : List ApiInfo) (st' : WalkSt)
    (h : walk env fuel p visited st = some (r, st')) :
    ∃ stuck, st'.stack = stuck ++ st.stack
      ∧ ∀ q ∈ stuck, env.file q = FileState.missing :=
  (walkStackAux env fuel).1 p visited st r st' h

/-- Witness for C6's amended theorem at the concrete missing file. -/
theorem c6_witness :
    ∃ stuck, (⟨[], ["m"], []⟩ : WalkSt).stack = stuck ++ (⟨[], [], []⟩ : WalkSt).stack
      ∧ ∀ q ∈ stuck, missEnv.file q = FileState.missing :=
  c6_stack_restored_except_missing missEnv 1 "m" [] ⟨[], [], []⟩ [] ⟨[], ["m"], []⟩ (by decide)

/-! ### C9 -/

/-- Environment of a shared component: entries `E1` and `E2` both import
component `C`, which imports a child `D`; all files are present and carry
arbitrary direct descriptor lists. -/
def sharedEnv (E1 E2 C D : String) (d1 d2 dC dD : List ApiInfo) : WalkEnv where
  file := fun _ => FileState.present
  direct := fun p =>
    if p = E1 then d1 else if p = E2 then d2 else if p = C then dC else if p = D then dD else []
  imports := fun p =>
    if p = E1 then [C] else if p = E2 then [C] else if p = C then [D] else []

/-- C9: a component `C` imported by two different entry files (with a
transitive child `D` and no import cycle) is read exactly once across the
two entry walks — the read log counts one read of `C` — and both entries'
results include `C`'s full reachable descriptor set `dC ++ dD`; the second
entry receives the memoized set, equal to the first computation. -/
theorem c9_shared_component_read_once (E1 E2 C D : String) (d1 d2 dC dD : List ApiInfo)
    (h12 : E1 ≠ E2) (h1C : E1 ≠ C) (h1D : E1 ≠ D) (h2C : E2 ≠ C) (h2D : E2 ≠ D)
    (hCD : C ≠ D) :
    walk (sharedEnv E1 E2 C D d1 d2 dC dD) 9 E1 [] ⟨[], [], []⟩
      = some (d1 ++ (dC ++ dD),
          ⟨[(E1, d1 ++ (dC ++ dD)), (C, dC ++ dD), (D, dD)], [], [D, C, E1]⟩)
    ∧ walk (sharedEnv E1 E2 C D d1 d2 dC dD) 9 E2 []
          ⟨[(E1, d1 ++ (dC ++ dD)), (C, dC ++ dD), (D, dD)], [], [D, C, E1]⟩
      = some (d2 ++ (dC ++ dD),
          ⟨[(E2, d2 ++ (dC ++ dD)), (E1, d1 ++ (dC ++ dD)), (C, dC ++ dD), (D, dD)], [],
            [E2, D, C, E1]⟩)
    ∧ ([E2, D, C, E1].count C) = 1
    ∧ cacheFind [(E2, d2 ++ (dC ++ dD)), (E1, d1 ++ (dC ++ dD)), (C, dC ++ dD), (D, dD)] C
        = some (dC ++ dD)
    ∧ ∀ x, x ∈ dC ++ dD → x ∈ d1 ++ (dC ++ dD) ∧ x ∈ d2 ++ (dC ++ dD) := by
  refine ⟨?_, ?_, ?_, ?_, ?_⟩
  · simp [walk, walkChildren, sharedEnv, cacheFind, h12, h1C, h1D, h2C, h2D, hCD,
      Ne.symm h12, Ne.symm h1C, Ne.symm h1D, Ne.symm h2C, Ne.symm h2D, Ne.symm hCD]
  · simp [walk, walkChildren, sharedEnv, cacheFind, h12, h1C, h1D, h2C, h2D, hCD,
      Ne.symm h12, Ne.symm h1C, Ne.symm h1D, Ne.symm h2C, Ne.symm h2D, Ne.symm hCD]
  · simp [List.count_cons, h1C, Ne.symm h2C, Ne.symm hCD, h2C, hCD]
  · simp [cacheFind, h2C, Ne.symm h2C, h1C, Ne.symm h1C]
  · intro x hx
    rcases List.mem_append.mp hx with h | h <;> simp [h]

/-- Witness for C9 at concrete names and descriptors. -/
theorem c9_witness :
    walk (sharedEnv "e1" "e2" "c" "d" [⟨"/1", "GET", none⟩] [⟨"/2", "GET", none⟩]
        [⟨"/c", "GET", none⟩] [⟨"/d", "GET", none⟩]) 9 "e1" [] ⟨[], [], []⟩
      = some ([⟨"/1", "GET", none⟩] ++ ([⟨"/c", "GET", none⟩] ++ [⟨"/d", "GET", none⟩]),
          ⟨[("e1", [⟨"/1", "GET", none⟩] ++ ([⟨"/c", "GET", none⟩] ++ [⟨"/d", "GET", none⟩])),
            ("c", [⟨"/c", "GET", none⟩] ++ [⟨"/d", "GET", none⟩]),
            ("d", [⟨"/d", "GET", none⟩])], [], ["d", "c", "e1"]⟩)
    ∧ walk (sharedEnv "e1" "e2" "c" "d" [⟨"/1", "GET", none⟩] [⟨"/2", "GET", none⟩]
          [⟨"/c", "GET", none⟩] [⟨"/d", "GET", none⟩]) 9 "e2" []
          ⟨[("e1", [⟨"/1", "GET", none⟩] ++ ([⟨"/c", "GET", none⟩] ++ [⟨"/d", "GET", none⟩])),
            ("c", [⟨"/c", "GET", none⟩] ++ [⟨"/d", "GET", none⟩]),
            ("d", [⟨"/d", "GET", none⟩])], [], ["d", "c", "e1"]⟩
      = some ([⟨"/2", "GET", none⟩] ++ ([⟨"/c", "GET", none⟩] ++ [⟨"/d", "GET", none⟩]),
          ⟨[("e2", [⟨"/2", "GET", none⟩] ++ ([⟨"/c", "GET", none⟩] ++ [⟨"/d", "GET", none⟩])),
            ("e1", [⟨"/1", "GET", none⟩] ++ ([⟨"/c", "GET", none⟩] ++ [⟨"/d", "GET", none⟩])),
            ("c", [⟨"/c", "GET", none⟩] ++ [⟨"/d", "GET", none⟩]),
            ("d", [⟨"/d", "GET", none⟩])], [], ["e2", "d", "c", "e1"]⟩)
    ∧ (["e2", "d", "c", "e1"].count "c") = 1
    ∧ cacheFind [("e2", [⟨"/2", "GET", none⟩] ++ ([⟨"/c", "GET", none⟩] ++ [⟨"/d", "GET", none⟩])),
          ("e1", [⟨"/1", "GET", none⟩] ++ ([⟨"/c", "GET", none⟩] ++ [⟨"/d", "GET", none⟩])),
          ("c", [⟨"/c", "GET", none⟩] ++ [⟨"/d", "GET", none⟩]),
          ("d", [⟨"/d", "GET", none⟩])] "c"
        = some ([⟨"/c", "GET", none⟩] ++ [⟨"/d", "GET", none⟩])
    ∧ ∀ x : ApiInfo,
        x ∈ ([⟨"/c", "GET", none⟩] : List ApiInfo) ++ ([⟨"/d", "GET", none⟩] : List ApiInfo) →
        x ∈ ([⟨"/1", "GET", none⟩] : List ApiInfo)
            ++ (([⟨"/c", "GET", none⟩] : List ApiInfo) ++ ([⟨"/d", "GET", none⟩] : List ApiInfo))
        ∧ x ∈ ([⟨"/2", "GET", none⟩] : List ApiInfo)
            ++ (([⟨"/c", "GET", none⟩] : List ApiInfo) ++ ([⟨"/d", "GET", none⟩] : List ApiInfo)) :=
  c9_shared_component_read_once "e1" "e2" "c" "d" _ _ _ _ (by decide) (by decide) (by decide)
    (by decide) (by decide) (by decide)

/-! ### C10 -/

/-- C10: a file under the pages root whose recursive walk yields zero
descriptors creates no category/page entry: `processFileWithConfig` only
touches `viewApiData` under its `allApis.length > 0` guard, so the
accumulated view data — and hence the generated output — is exactly what it
was before. -/
theorem c10_empty_walk_no_entry (env : WalkEnv) (fuel : Nat) (viewsMarker : List Char)
    (path : String) (rest : List Char) (vd : ViewData) (st st' : WalkSt)
    (hm : afterFirstMarker viewsMarker path.toList = some rest)
    (hw : walk env fuel path [] st = some ([], st')) :
    processFile env fuel viewsMarker path vd st = some (vd, st') := by
  unfold processFile
  rw [hm, hw]
  simp

/-- Environment whose files are present but carry no descriptors at all. -/
def emptyPageEnv : WalkEnv where
  file := fun _ => FileState.present
  direct := fun _ => []
  imports := fun _ => []

/-- Witness for C10 at a concrete page file with an empty walk. -/
theorem c10_witness :
    processFile emptyPageEnv 1 "/src/views/".toList "/r/src/views/a.vue" [] ⟨[], [], []⟩
      = some ([], ⟨[("/r/src/views/a.vue", [])], [], ["/r/src/views/a.vue"]⟩) :=
  c10_empty_walk_no_entry emptyPageEnv 1 "/src/views/".toList "/r/src/views/a.vue"
    "a.vue".toList [] ⟨[], [], []⟩ ⟨[("/r/src/views/a.vue", [])], [], ["/r/src/views/a.vue"]⟩
    (by decide) (by decide)

/-! ### C7 -/

theorem mem_addToSet {s : List ApiInfo} {a x : ApiInfo} :
    x ∈ addToSet s a ↔ x ∈ s ∨ x = a := by
  unfold addToSet
  split
  · rename_i hmem
    constructor
    · exact Or.inl
    · rintro (h | rfl)
      · exact h
      · exact hmem
  · simp

theorem addToSet_nodup {s : List ApiInfo} {a : ApiInfo} (h : s.Nodup) :
    (addToSet s a).Nodup := by
  unfold addToSet
  split
  · exact h
  · rename_i hmem
    simp [List.nodup_append, h, hmem]

theorem mem_setAddAll {x : ApiInfo} :
    ∀ (l s : List ApiInfo), x ∈ setAddAll s l ↔ x ∈ s ∨ x ∈ l := by
  intro l
  induction l with
  | nil => intro s; simp [setAddAll]
  | cons a l' ih =>
    intro s
    show x ∈ setAddAll (addToSet s a) l' ↔ _
    rw [ih]
    rw [mem_addToSet]
    simp
    tauto

theorem setAddAll_nodup : ∀ (l s : List ApiInfo), s.Nodup → (setAddAll s l).Nodup := by
  intro l
  induction l with
  | nil => intro s h; exact h
  | cons a l' ih =>
    intro s h
    exact ih (addToSet s a) (addToSet_nodup h)

/-- C7 amended: deduplication is by the whole descriptor — structural
equality of url, method and declaring-function name.  Any descriptor
discovered any number of times for one entry appears exactly once in that
entry's sorted output array.  (Two descriptors agreeing on url and method
but declared by different functions are distinct and are both kept: see the
counterexample.) -/
theorem c7_dedup_by_triple (l : List ApiInfo) (a : ApiInfo) (ha : a ∈ l) :
    (sortApis (setAddAll [] l)).count a = 1 := by
  have h1 : (setAddAll [] l).Nodup := setAddAll_nodup l [] (by simp)
  have h2 : a ∈ setAddAll [] l := (mem_setAddAll l []).mpr (Or.inr ha)
  have h3 : (setAddAll [] l).count a = 1 := List.count_eq_one_of_mem h1 h2
  have h4 : List.Perm (sortApis (setAddAll [] l)) (setAddAll [] l) :=
    List.perm_insertionSort urlLE _
  rw [h4.count_eq]
  exact h3

/-- Two catalog functions declaring the same url and method. -/
def dupA1 : ApiInfo := ⟨"/x", "GET", some "f"⟩

/-- A second descriptor with the same url and method but another name. -/
def dupA2 : ApiInfo := ⟨"/x", "GET", some "g"⟩

/-- C7 counterexample: two descriptors with the same `{url, method}` pair
but different declaring-function names both survive deduplication, so the
pair appears twice in the entry's output array — the claim's "appears
exactly once" does not hold under the triple-based equality the code uses. -/
theorem c7_counterexample :
    allArrays (generate (vdInsert [] "c" "c" [dupA1, dupA2])) = [[dupA1, dupA2]]
    ∧ List.countP (fun a => a.url == "/x" && a.method == "GET") [dupA1, dupA2] = 2 := by
  decide

/-- Witness for C7's amended theorem: a descriptor discovered twice is
emitted once. -/
theorem c7_witness : (sortApis (setAddAll [] [dupA1, dupA1, dupA2])).count dupA1 = 1 :=
  c7_dedup_by_triple [dupA1, dupA1, dupA2] dupA1 (by decide)

/-! ### C3 -/

/-- The sort order the claim asserts: non-decreasing by url, and
non-decreasing by method among entries of equal url. -/
def urlMethodLE (a b : ApiInfo) : Prop :=
  charsLe a.url.toList b.url.toList = true
    ∧ (a.url = b.url → charsLe a.method.toList b.method.toList = true)

instance : DecidableRel urlMethodLE := fun a b =>
  inferInstanceAs (Decidable (charsLe a.url.toList b.url.toList = true
    ∧ (a.url = b.url → charsLe a.method.toList b.method.toList = true)))

/-- An output array sorted by (url, then method) in the claim's sense. -/
def sortedByUrlMethod (l : List ApiInfo) : Prop := List.Chain' urlMethodLE l

instance (l : List ApiInfo) : Decidable (sortedByUrlMethod l) :=
  inferInstanceAs (Decidable (List.Chain' urlMethodLE l))

/-- C3 counterexample: the comparator sorts by url only and JavaScript's
sort is stable, so two equal-url entries keep their insertion order — here
`POST` before `GET` — and the output array is not sorted by method among
equal urls. -/
theorem c3_counterexample :
    allArrays (generate (vdInsert [] "c" "c"
        [⟨"/x", "POST", none⟩, ⟨"/x", "GET", none⟩]))
      = [[⟨"/x", "POST", none⟩, ⟨"/x", "GET", none⟩]]
    ∧ ¬ sortedByUrlMethod [⟨"/x", "POST", none⟩, ⟨"/x", "GET", none⟩] := by
  constructor
  · decide
  · intro h
    have h' : List.Chain' urlMethodLE [⟨"/x", "POST", none⟩, ⟨"/x", "GET", none⟩] := h
    obtain ⟨hab, _⟩ := List.chain'_cons.mp h'
    exact absurd (hab.2 rfl) (by decide)

/-- C3 amended: every array in the generated output, flat or nested, is
non-decreasing by url; entries of equal url stay in insertion order (the
comparator never looks at the method). -/
theorem c3_output_sorted_by_url : ∀ (vd : ViewData) (arr : List ApiInfo),
    arr ∈ allArrays (generate vd) → List.Sorted urlLE arr := by
  intro vd arr h
  simp only [allArrays, List.mem_flatMap] at h
  obtain ⟨co, hco, harr⟩ := h
  simp only [generate, List.mem_map] at hco
  obtain ⟨cp, hcp, rfl⟩ := hco
  obtain ⟨cat, pages⟩ := cp
  by_cases hcond : (cat = "/" ∨ (List.map Prod.fst pages).length = 1
      ∧ (List.map Prod.fst pages).headD "" = "/" ∨ (List.map Prod.fst pages).length = 1
      ∧ (List.map Prod.fst pages).headD "" = cat)
  · rw [if_pos hcond] at harr
    cases pages with
    | nil =>
      simp at harr
      subst harr
      exact List.sorted_nil
    | cons p ps =>
      obtain ⟨k, s⟩ := p
      simp at harr
      subst harr
      exact List.sorted_insertionSort urlLE s
  · rw [if_neg hcond] at harr
    simp only [List.mem_map] at harr
    obtain ⟨ps, hps, rfl⟩ := harr
    obtain ⟨q, hq, rfl⟩ := hps
    exact List.sorted_insertionSort urlLE q.2

/-- Witness for C3's amended theorem on a concrete output array. -/
theorem c3_witness :
    List.Sorted urlLE [⟨"/a", "GET", none⟩, ⟨"/b", "GET", none⟩] :=
  c3_output_sorted_by_url
    (vdInsert [] "c" "c" [⟨"/b", "GET", none⟩, ⟨"/a", "GET", none⟩])
    [⟨"/a", "GET", none⟩, ⟨"/b", "GET", none⟩] (by decide)

/-! ### C4 -/

/-- Environment for a page whose direct descriptors come from the real
extraction chain: the `user` catalog module is parsed by `analyzeApiFile`,
and the page imports and calls `getUser`. -/
def pageEnv : WalkEnv where
  file := fun _ => FileState.present
  direct := fun p => if p = "/r/src/views/user/index.vue" then pageDirect else []
  imports := fun _ => []

/-- C4 counterexample: a catalog-derived descriptor flows into the output
document still carrying its declaring-function name — `JSON.stringify` of
the stored `ApiInfo` keeps the `functionName` field and `generateApiFile`
never strips it, so the serialized descriptor has three fields, not the
claimed exactly-`{url, method}` two. -/
theorem c4_counterexample :
    (processFile pageEnv 2 "/src/views/".toList "/r/src/views/user/index.vue" [] ⟨[], [], []⟩).map
        (fun r => allArrays (generate r.1))
      = some [[⟨"/user/", "GET", some "getUser"⟩]]
    ∧ (⟨"/user/", "GET", some "getUser"⟩ : ApiInfo).functionName ≠ none := by
  decide

/-- C4 amended: descriptors from direct url literals carry no
declaring-function name (they serialize as `{url, method}`), but catalog
descriptors keep their name through `findApiByFunctionName`, through
`analyzeApiFile` (whose descriptors always carry a name), and into the
output: every output array's membership coincides with a stored descriptor
set, fields untouched — so the declaring-function name of a
catalog-derived descriptor is emitted. -/
theorem c4_functionName_kept (vd : ViewData) (hvd : ∀ cp ∈ vd, cp.2 ≠ []) :
    (∀ (code : List Char) (a : ApiInfo), a ∈ urlLiteralApis code →
        a.functionName = none ∧ a.method = "UNKNOWN")
    ∧ (∀ (apis : List ApiInfo) (fn : String) (a : ApiInfo),
        findApiByFunctionName apis fn = some a → a ∈ apis)
    ∧ (∀ (code : String) (a : ApiInfo), a ∈ analyzeApiFile code → a.functionName ≠ none)
    ∧ (∀ arr ∈ allArrays (generate vd), ∃ cp ∈ vd, ∃ ps ∈ cp.2,
        ∀ x : ApiInfo, x ∈ arr ↔ x ∈ ps.2) := by
  refine ⟨?_, ?_, ?_, ?_⟩
  · intro code a ha
    simp only [urlLiteralApis, List.mem_map] at ha
    obtain ⟨u, _, rfl⟩ := ha
    exact ⟨rfl, rfl⟩
  · intro apis
    induction apis with
    | nil => intro fn a h; simp [findApiByFunctionName] at h
    | cons api rest ih =>
      intro fn a h
      simp only [findApiByFunctionName] at h
      split at h
      · simp at h
        simp [h]
      · simp [ih fn a h]
  · intro code a ha
    simp only [analyzeApiFile, List.mem_append, List.mem_filterMap] at ha
    have hgen : ∀ nb : List Char × List Char, processPatternMatch nb = some a →
        a.functionName ≠ none := by
      intro nb hpm
      unfold processPatternMatch at hpm
      split at hpm
      · exact absurd hpm (by simp)
      · simp at hpm
        rw [← hpm]
        simp
    rcases ha with ⟨nb, _, hpm⟩ | ⟨nb, _, hpm⟩
    · exact hgen nb hpm
    · exact hgen nb hpm
  · intro arr h
    simp only [allArrays, List.mem_flatMap] at h
    obtain ⟨co, hco, harr⟩ := h
    simp only [generate, List.mem_map] at hco
    obtain ⟨cp, hcp, rfl⟩ := hco
    obtain ⟨cat, pages⟩ := cp
    by_cases hcond : (cat = "/" ∨ (List.map Prod.fst pages).length = 1
        ∧ (List.map Prod.fst pages).headD "" = "/" ∨ (List.map Prod.fst pages).length = 1
        ∧ (List.map Prod.fst pages).headD "" = cat)
    · rw [if_pos hcond] at harr
      cases pages with
      | nil => exact absurd rfl (hvd _ hcp)
      | cons p ps =>
        obtain ⟨k, s⟩ := p
        simp at harr
        subst harr
        refine ⟨(cat, (k, s) :: ps), hcp, (k, s), by simp, ?_⟩
        intro x
        exact List.mem_insertionSort urlLE
    · rw [if_neg hcond] at harr
      simp only [List.mem_map] at harr
      obtain ⟨ps, hps, rfl⟩ := harr
      obtain ⟨q, hq, rfl⟩ := hps
      refine ⟨(cat, pages), hcp, q, hq, ?_⟩
      intro x
      exact List.mem_insertionSort urlLE

/-- Witness for C4's amended theorem at a concrete accumulator. -/
theorem c4_witness :
    (∀ (code : List Char) (a : ApiInfo), a ∈ urlLiteralApis code →
        a.functionName = none ∧ a.method = "UNKNOWN")
    ∧ (∀ (apis : List ApiInfo) (fn : String) (a : ApiInfo),
        findApiByFunctionName apis fn = some a → a ∈ apis)
    ∧ (∀ (code : String) (a : ApiInfo), a ∈ analyzeApiFile code → a.functionName ≠ none)
    ∧ (∀ arr ∈ allArrays (generate (vdInsert [] "user" "user"
          [⟨"/user/", "GET", some "getUser"⟩])),
        ∃ cp ∈ vdInsert [] "user" "user" [⟨"/user/", "GET", some "getUser"⟩],
          ∃ ps ∈ cp.2, ∀ x : ApiInfo, x ∈ arr ↔ x ∈ ps.2) :=
  c4_functionName_kept (vdInsert [] "user" "user" [⟨"/user/", "GET", some "getUser"⟩])
    (by decide)

/-! ### C8 -/

/-- Text with a quoted url literal that does not start with a slash. -/
def urlNoSlashSrc : String := "url: " ++ dqc.toString ++ "user/list" ++ dqc.toString

/-- C8 counterexample: the url-literal regex requires the quoted path to
start with `/` (and to have at least one more character), so
`url: "user/list"` yields no descriptor at all — the claim's "regardless of
what the path string looks like" fails. -/
theorem c8_counterexample :
    extractDirectApis urlNoSlashSrc [] [] [] "api" = []
    ∧ (⟨"user/list", "UNKNOWN", none⟩ : ApiInfo)
        ∉ extractDirectApis urlNoSlashSrc [] [] [] "api" := by
  decide

/-- No occurrence of the four characters `url:` anywhere in the text. -/
def NoUrlColon (s : List Char) : Prop :=
  findFrom (stripLit ['u', 'r', 'l', ':']) s = none

instance (s : List Char) : Decidable (NoUrlColon s) :=
  inferInstanceAs (Decidable (findFrom (stripLit ['u', 'r', 'l', ':']) s = none))

theorem scanUrlLiteralsF_nil : ∀ f, scanUrlLiteralsF f [] = [] := by
  intro f
  cases f <;> rfl

theorem scanUrlLiteralsF_fuel : ∀ (f1 f2 : Nat) (s : List Char),
    s.length ≤ f1 → s.length ≤ f2 → scanUrlLiteralsF f1 s = scanUrlLiteralsF f2 s := by
  intro f1
  induction f1 with
  | zero =>
    intro f2 s h1 _
    have : s = [] := by
      cases s with
      | nil => rfl
      | cons c cs => simp at h1
    subst this
    rw [scanUrlLiteralsF_nil, scanUrlLiteralsF_nil]
  | succ n ih =>
    intro f2 s h1 h2
    cases s with
    | nil => rw [scanUrlLiteralsF_nil, scanUrlLiteralsF_nil]
    | cons c cs =>
      cases f2 with
      | zero => simp at h2
      | succ m =>
        show scanUrlLiteralsF (n + 1) (c :: cs) = scanUrlLiteralsF (m + 1) (c :: cs)
        simp only [scanUrlLiteralsF]
        cases hm : matchUrlLiteralAt (c :: cs) with
        | none =>
          simp only [List.length_cons] at h1 h2
          exact ih m cs (by omega) (by omega)
        | some pr =>
          obtain ⟨cap, rest⟩ := pr
          have hlen := matchUrlLiteralAt_length hm
          simp only [List.length_cons] at h1 h2 hlen
          simp [ih m rest (by omega) (by omega)]

theorem findFrom_cons_none {α : Type} {p : List Char → Option α} {c : Char} {cs : List Char}
    (h : findFrom p (c :: cs) = none) : p (c :: cs) = none ∧ findFrom p cs = none := by
  simp only [findFrom] at h
  cases hp : p (c :: cs) with
  | none =>
    rw [hp] at h
    exact ⟨rfl, h⟩
  | some a => rw [hp] at h; simp at h

theorem matchUrlLiteralAt_eq_none {s : List Char}
    (h : stripLit ['u', 'r', 'l', ':'] s = none) : matchUrlLiteralAt s = none := by
  unfold matchUrlLiteralAt
  rw [h]
  rfl

theorem stripLit_url_append {s t : List Char}
    (h : stripLit ['u', 'r', 'l', ':'] s = none) (hs : s ≠ [])
    (ht : t = [] ∨ ∃ t', t = 'u' :: t') :
    stripLit ['u', 'r', 'l', ':'] (s ++ t) = none := by
  cases s with
  | nil => exact absurd rfl hs
  | cons c1 s1 =>
    by_cases hc1 : c1 = 'u'
    case neg => simp [stripLit, hc1]
    subst hc1
    simp only [stripLit, List.cons_append, if_pos rfl] at h ⊢
    cases s1 with
    | nil =>
      rcases ht with rfl | ⟨t', rfl⟩
      · rfl
      · simp [stripLit]
    | cons c2 s2 =>
      by_cases hc2 : c2 = 'r'
      case neg => simp [stripLit, hc2]
      subst hc2
      simp only [stripLit, List.cons_append, if_pos rfl] at h ⊢
      cases s2 with
      | nil =>
        rcases ht with rfl | ⟨t', rfl⟩
        · rfl
        · simp [stripLit]
      | cons c3 s3 =>
        by_cases hc3 : c3 = 'l'
        case neg => simp [stripLit, hc3]
        subst hc3
        simp only [stripLit, List.cons_append, if_pos rfl] at h ⊢
        cases s3 with
        | nil =>
          rcases ht with rfl | ⟨t', rfl⟩
          · rfl
          · simp [stripLit]
        | cons c4 s4 =>
          by_cases hc4 : c4 = ':'
          case neg => simp [stripLit, hc4]
          subst hc4
          simp [stripLit] at h

/-- One well-formed url-literal occurrence: `url:` then whitespace, a
quote, a slash-led path body without quotes, and a closing quote. -/
structure UrlOcc where
  sp : List Char
  q1 : Char
  body : List Char
  q2 : Char

/-- The text of an occurrence. -/
def occText (o : UrlOcc) : List Char :=
  'u' :: 'r' :: 'l' :: ':' :: (o.sp ++ o.q1 :: '/' :: (o.body ++ [o.q2]))

/-- Well-formedness of an occurrence: the gap is whitespace, the delimiters
are quotes, and the body is nonempty and quote:free. -/
def UrlOccWF (o : UrlOcc) : Prop :=
  (∀ c ∈ o.sp, isJsSpace c = true) ∧ isQuote2 o.q1 = true ∧ isQuote2 o.q2 = true
    ∧ o.body ≠ [] ∧ ∀ c ∈ o.body, isQuote2 c = false

instance (o : UrlOcc) : Decidable (UrlOccWF o) :=
  inferInstanceAs (Decidable ((∀ c ∈ o.sp, isJsSpace c = true) ∧ isQuote2 o.q1 = true
    ∧ isQuote2 o.q2 = true ∧ o.body ≠ [] ∧ ∀ c ∈ o.body, isQuote2 c = false))

/-- The glued text: separators interleaved with occurrences, then a tail. -/
def glueSegs : List (List Char × UrlOcc) → List Char → List Char
  | [], fin => fin
  | (sep, o) :: rest, fin => sep ++ (occText o ++ glueSegs rest fin)

theorem quote2_not_space {c : Char} (h : isQuote2 c = true) : isJsSpace c = false := by
  unfold isQuote2 at h
  rcases Bool.or_eq_true_iff.mp h with h | h
  · have : c = sqc := by simpa using h
    subst this
    decide
  · have : c = dqc := by simpa using h
    subst this
    decide

theorem spanP_all_stop {p : Char → Bool} :
    ∀ (body : List Char) (q : Char) (t : List Char), (∀ c ∈ body, p c = true) → p q = false →
    spanP p (body ++ q :: t) = (body, q :: t) := by
  intro body
  induction body with
  | nil =>
    intro q t _ hq
    simp [spanP, hq]
  | cons b bs ih =>
    intro q t hall hq
    have hb : p b = true := hall b (by simp)
    have ih' := ih q t (fun c hc => hall c (by simp [hc])) hq
    simp [spanP, hb, ih']

theorem dropSpaces_spaces_stop (sp : List Char) (q : Char) (t : List Char)
    (hsp : ∀ c ∈ sp, isJsSpace c = true) (hq : isJsSpace q = false) :
    dropSpaces (sp ++ q :: t) = q :: t := by
  unfold dropSpaces
  rw [spanP_all_stop sp q t hsp hq]

theorem matchUrlLiteralAt_occ {o : UrlOcc} (hwf : UrlOccWF o) (t : List Char) :
    matchUrlLiteralAt (occText o ++ t) = some ('/' :: o.body, t) := by
  obtain ⟨hsp, hq1, hq2, hbody, hbq⟩ := hwf
  obtain ⟨sp, q1, body, q2⟩ := o
  simp only at hsp hq1 hq2 hbody hbq
  unfold matchUrlLiteralAt
  have h1 : stripLit ['u', 'r', 'l', ':'] (occText ⟨sp, q1, body, q2⟩ ++ t)
      = some (sp ++ q1 :: '/' :: (body ++ [q2]) ++ t) := by
    simp [occText, stripLit]
  rw [h1]
  have h2 : dropSpaces (sp ++ q1 :: '/' :: (body ++ [q2]) ++ t)
      = q1 :: '/' :: (body ++ [q2]) ++ t := by
    have := dropSpaces_spaces_stop sp q1
      ('/' :: (body ++ [q2]) ++ t) hsp (quote2_not_space hq1)
    simpa using this
  have h3 : expectClass isQuote2 (q1 :: '/' :: (body ++ [q2]) ++ t)
      = some ('/' :: (body ++ [q2]) ++ t) := by
    simp [expectClass, hq1]
  have h4 : expectClass (fun c => c = '/') ('/' :: (body ++ [q2]) ++ t)
      = some ((body ++ [q2]) ++ t) := by
    simp [expectClass]
  have h5 : takeClass1 (fun d => !isQuote2 d) ((body ++ [q2]) ++ t)
      = some (body, q2 :: t) := by
    unfold takeClass1
    have he : (body ++ [q2]) ++ t = body ++ q2 :: t := by simp
    rw [he]
    rw [spanP_all_stop body q2 t (fun c hc => by simp [hbq c hc]) (by simp [hq2])]
    cases body with
    | nil => exact absurd rfl hbody
    | cons b bs => rfl
  have h6 : expectClass isQuote2 (q2 :: t) = some t := by
    simp [expectClass, hq2]
  simp only [Option.bind_eq_bind, Option.some_bind, h2, h3, h4, h5, h6, Option.pure_def]

theorem scanUrlLiterals_occ {o : UrlOcc} (hwf : UrlOccWF o) (t : List Char) :
    scanUrlLiterals (occText o ++ t) = ('/' :: o.body) :: scanUrlLiterals t := by
  have hm := matchUrlLiteralAt_occ hwf t
  unfold scanUrlLiterals
  cases ho : occText o ++ t with
  | nil => exact absurd ho (by simp [occText])
  | cons c cs =>
    rw [ho] at hm
    have hlen : t.length ≤ cs.length := by
      have : (occText o ++ t).length = cs.length + 1 := by rw [ho]; rfl
      simp only [List.length_append, occText, List.length_cons] at this
      omega
    simp only [List.length_cons, scanUrlLiteralsF, hm]
    rw [scanUrlLiteralsF_fuel cs.length t.length t hlen (le_refl _)]

theorem scanUrlLiterals_skip (sep t : List Char) (hsep : NoUrlColon sep)
    (ht : t = [] ∨ ∃ t', t = 'u' :: t') :
    scanUrlLiterals (sep ++ t) = scanUrlLiterals t := by
  induction sep with
  | nil => simp
  | cons c cs ih =>
    obtain ⟨h1, h2⟩ := findFrom_cons_none hsep
    have hnone : matchUrlLiteralAt (c :: (cs ++ t)) = none := by
      have := matchUrlLiteralAt_eq_none (stripLit_url_append h1 (by simp) ht)
      simpa using this
    show scanUrlLiteralsF ((c :: cs ++ t).length) (c :: cs ++ t) = _
    simp only [List.cons_append, List.append_eq, List.length_cons, scanUrlLiteralsF, hnone]
    exact ih h2

theorem scanUrlLiterals_of_none {s : List Char} (h : NoUrlColon s) :
    scanUrlLiterals s = [] := by
  have := scanUrlLiterals_skip s [] h (Or.inl rfl)
  simpa using this

/-- C8 amended: every well-formed `url:` literal occurrence — whitespace,
then a single- or double-quoted path starting with `/` and at least two
characters long — yields a direct descriptor with that url and method
`UNKNOWN`, wherever it appears in the text and however many there are,
provided the token `url:` does not also occur inside the separating text
(where it could make the scanner consume across occurrence boundaries):
the global scan returns exactly the occurrences' paths in order, and each
corresponding descriptor is in the extracted direct set. -/
theorem c8_url_literal_occurrences (segs : List (List Char × UrlOcc)) (fin : List Char) (catalog : Catalog)
    (aliasCfg viteAlias : List (String × String)) (apiDirName : String)
    (hsegs : ∀ so ∈ segs, NoUrlColon so.1 ∧ UrlOccWF so.2) (hfin : NoUrlColon fin) :
    scanUrlLiterals (glueSegs segs fin) = segs.map (fun so => '/' :: so.2.body)
    ∧ ∀ so ∈ segs, (⟨⟨'/' :: so.2.body⟩, "UNKNOWN", none⟩ : ApiInfo)
        ∈ extractDirectApis ⟨glueSegs segs fin⟩ catalog aliasCfg viteAlias apiDirName := by
  have hscan : ∀ segs2 : List (List Char × UrlOcc),
      (∀ so ∈ segs2, NoUrlColon so.1 ∧ UrlOccWF so.2) →
      scanUrlLiterals (glueSegs segs2 fin) = segs2.map (fun so => '/' :: so.2.body) := by
    intro segs2
    induction segs2 with
    | nil =>
      intro _
      exact scanUrlLiterals_of_none hfin
    | cons so rest ih =>
      intro hall
      obtain ⟨sep, o⟩ := so
      have h1 : NoUrlColon sep := (hall (sep, o) (by simp)).1
      have h2 : UrlOccWF o := (hall (sep, o) (by simp)).2
      show scanUrlLiterals (sep ++ (occText o ++ glueSegs rest fin)) = _
      have hu : ∃ t', occText o ++ glueSegs rest fin = 'u' :: t' := ⟨_, rfl⟩
      rw [scanUrlLiterals_skip sep (occText o ++ glueSegs rest fin) h1 (Or.inr hu)]
      rw [scanUrlLiterals_occ h2]
      rw [ih (fun so2 hso2 => hall so2 (by simp [hso2]))]
      simp
  refine ⟨hscan segs hsegs, ?_⟩
  intro so hso
  unfold extractDirectApis
  apply List.mem_append_left
  apply List.mem_append_left
  unfold urlLiteralApis
  have hdata : (⟨glueSegs segs fin⟩ : String).toList = glueSegs segs fin := rfl
  rw [hdata, hscan segs hsegs]
  have : ('/' :: so.2.body) ∈ segs.map (fun so => '/' :: so.2.body) :=
    List.mem_map_of_mem _ hso
  exact List.mem_map_of_mem _ this

/-- One concrete well-formed occurrence. -/
def occW : UrlOcc := ⟨[' '], dqc, "a/b".toList, dqc⟩

/-- Witness for C8's amended theorem on a concrete text. -/
theorem c8_witness :
    scanUrlLiterals (glueSegs [("x = ".toList, occW)] ";".toList)
      = [("x = ".toList, occW)].map (fun so => '/' :: so.2.body)
    ∧ ∀ so ∈ [("x = ".toList, occW)], (⟨⟨'/' :: so.2.body⟩, "UNKNOWN", none⟩ : ApiInfo)
        ∈ extractDirectApis ⟨glueSegs [("x = ".toList, occW)] ";".toList⟩ [] [] [] "api" :=
  c8_url_literal_occurrences [("x = ".toList, occW)] ";".toList [] [] [] "api"
    (by decide) (by decide)
